import Mathlib

/-
Verification of the block-matching engine
(`itkBlockMatchingImageFilter.hxx`) against its specification.

The engine is embedded shallowly: images are total pixel maps (the injected
boundary policy supplies a value for every index), machine floating point is
modelled by exact rationals, and the threaded fork-join phase is modelled by
explicit per-worker writes into an index-addressed array.
-/

namespace ITK

/-- A grid index of a d-dimensional image. -/
abbrev Index (d : ℕ) := Fin d → ℤ

/-- An image as total pixel access: the injected boundary policy supplies a
value for out-of-extent indices, so pixel access is total. -/
abbrev Image (d : ℕ) := Index d → ℚ

/-- A physical-space coordinate. -/
abbrev PhysPoint (d : ℕ) := Fin d → ℚ

/-- An image together with its physical-to-index and index-to-physical
coordinate mappings (`TransformPhysicalPointToIndex`,
`TransformIndexToPhysicalPoint`), kept abstract as in the source. -/
structure ImageGeom (d : ℕ) where
  pixels : Image d
  physToIndex : PhysPoint d → Index d
  indexToPhys : Index d → PhysPoint d

/-- Raster enumeration of all offsets `o` with `0 ≤ o i < sz i`: axis 0
varies fastest, the last axis slowest, matching the iterator order of
`ConstNeighborhoodIterator` over an image region. -/
def rasterOffsets : (d : ℕ) → (Fin d → ℕ) → List (Index d)
  | 0, _ => [Fin.elim0]
  | d + 1, sz =>
    (List.range (sz (Fin.last d))).flatMap fun k =>
      (rasterOffsets d (fun i => sz i.castSucc)).map fun o => Fin.snoc o (k : ℤ)

/-- Offsets of a block of radius `r`: from `-r` to `r` per axis, in the
raster order in which `GetPixel(i)` visits the neighborhood. -/
def blockOffsetsList {d : ℕ} (r : Fin d → ℕ) : List (Index d) :=
  (rasterOffsets d (fun i => 2 * r i + 1)).map fun o i => o i - r i

/-- The block offsets as a finite set. -/
def blockOffsets {d : ℕ} (r : Fin d → ℕ) : Finset (Index d) :=
  (blockOffsetsList r).toFinset

/-- Number of voxels in a block, accumulated in the source as
`numberOfVoxelInBlock *= m_BlockRadius[i] + 1 + m_BlockRadius[i]`. -/
def numberOfVoxelInBlock {d : ℕ} (r : Fin d → ℕ) : ℕ :=
  ∏ i : Fin d, (r i + 1 + r i)

/-- The five running sums accumulated over one block pair
(lines 329 to 345 of the source). -/
structure BlockStats where
  fixedSum : ℚ
  fixedSumOfSquares : ℚ
  movingSum : ℚ
  movingSumOfSquares : ℚ
  covariance : ℚ
deriving DecidableEq

/-- One iteration of the inner block loop: `fixedValue` is read from the
fixed image at the candidate block, `movingValue` from the moving image at
the center block, and the five sums are updated. -/
def statsStep {d : ℕ} (fixed moving : Image d) (movingIndex cand : Index d)
    (s : BlockStats) (o : Index d) : BlockStats :=
  let fixedValue := fixed (cand + o)
  let movingValue := moving (movingIndex + o)
  { fixedSum := s.fixedSum + fixedValue
    fixedSumOfSquares := s.fixedSumOfSquares + fixedValue * fixedValue
    movingSum := s.movingSum + movingValue
    movingSumOfSquares := s.movingSumOfSquares + movingValue * movingValue
    covariance := s.covariance + fixedValue * movingValue }

/-- The block statistics the source computes for one candidate: the inner
loop over `numberOfVoxelInBlock` voxels, with `windowIterator` anchored at
the candidate in the fixed image and `centerIterator` anchored at
`movingIndex` in the moving image. -/
def computeBlockStats {d : ℕ} (fixed moving : Image d) (r : Fin d → ℕ)
    (movingIndex cand : Index d) : BlockStats :=
  (blockOffsetsList r).foldl (statsStep fixed moving movingIndex cand) ⟨0, 0, 0, 0, 0⟩

/-- Variance as on lines 348 and 349: `sumSq - n * mean * mean` with
`mean = sum / n`. -/
def varOf (sum sumSq : ℚ) (n : ℕ) : ℚ :=
  sumSq - n * (sum / n) * (sum / n)

/-- Covariance as on line 350: `cross - n * meanA * meanB`. -/
def covOf (cross sumA sumB : ℚ) (n : ℕ) : ℚ :=
  cross - n * (sumA / n) * (sumB / n)

/-- Guarded similarity as on lines 352 to 356: divide only when the product
of variances is nonzero, otherwise 0. -/
def simOf (varA varB cov : ℚ) : ℚ :=
  if varA * varB ≠ 0 then cov * cov / (varA * varB) else 0

/-- Similarity derived from the five block sums (lines 346 to 356). -/
def simFromStats (s : BlockStats) (n : ℕ) : ℚ :=
  simOf (varOf s.fixedSum s.fixedSumOfSquares n) (varOf s.movingSum s.movingSumOfSquares n)
    (covOf s.covariance s.fixedSum s.movingSum n)

/-- Similarity of the candidate block against the center block. -/
def simAtCandidate {d : ℕ} (fixed moving : Image d) (r : Fin d → ℕ)
    (movingIndex cand : Index d) : ℚ :=
  simFromStats (computeBlockStats fixed moving r movingIndex cand) (numberOfVoxelInBlock r)

/-- Start index of the window region, line 315:
`start = fixedIndex - m_SearchRadius`. -/
def windowStart {d : ℕ} (fixedIndex : Index d) (sr : Fin d → ℕ) : Index d :=
  fun i => fixedIndex i - sr i

/-- The candidate centers visited by `windowIterator`: the window region of
size `1 + 2 * SearchRadius` per axis starting at `fixedIndex - SearchRadius`,
in raster order. -/
def candidateList {d : ℕ} (fixedIndex : Index d) (sr : Fin d → ℕ) : List (Index d) :=
  (rasterOffsets d (fun i => 1 + 2 * sr i)).map fun o => windowStart fixedIndex sr + o

/-- Displacement recorded for a winning candidate, lines 360 to 362:
physical point of the candidate index minus the original location. -/
def dispAtCandidate {d : ℕ} (fixed : ImageGeom d) (pt : PhysPoint d)
    (cand : Index d) : PhysPoint d :=
  fun i => fixed.indexToPhys cand i - pt i

/-- One step of the selection loop, lines 358 to 364: update the retained
pair whenever `sim >= similarity` (non-strict). -/
def scanStep {d : ℕ} (simAt : Index d → ℚ) (dispAt : Index d → PhysPoint d)
    (best : PhysPoint d × ℚ) (cand : Index d) : PhysPoint d × ℚ :=
  if best.2 ≤ simAt cand then (dispAt cand, simAt cand) else best

/-- The selection loop over a list of candidate centers. -/
def scanCandidates {d : ℕ} (simAt : Index d → ℚ) (dispAt : Index d → PhysPoint d)
    (init : PhysPoint d × ℚ) (cs : List (Index d)) : PhysPoint d × ℚ :=
  cs.foldl (scanStep simAt dispAt) init

/-- The per-point search (body of the loop over feature points,
lines 302 to 368): map the point into both index spaces, scan the window of
candidates in the fixed image, and return the retained displacement and
similarity.  The similarity accumulator starts at 0. -/
def searchPoint {d : ℕ} (fixed moving : ImageGeom d) (r sr : Fin d → ℕ)
    (pt : PhysPoint d) : PhysPoint d × ℚ :=
  let fixedIndex := fixed.physToIndex pt
  let movingIndex := moving.physToIndex pt
  scanCandidates (simAtCandidate fixed.pixels moving.pixels r movingIndex)
    (dispAtCandidate fixed pt) (fun _ => 0, 0) (candidateList fixedIndex sr)

/-- Work range of one worker, lines 279 to 284: `count = N / W`,
`first = threadId * count`, and the last worker adds `N mod W`. -/
def workRange (N W w : ℕ) : ℕ × ℕ :=
  let count := N / W
  (w * count, if w + 1 = W then count + N % W else count)

/-- Membership of index `i` in the work range of worker `w`. -/
def inWorkRange (N W w i : ℕ) : Prop :=
  (workRange N W w).1 ≤ i ∧ i < (workRange N W w).1 + (workRange N W w).2

instance (N W w i : ℕ) : Decidable (inWorkRange N W w i) := by
  unfold inWorkRange
  infer_instance

/-- One worker writing its results into the shared result array: every index
of its range receives the per-point result. -/
def writeRange {α : Type} (f : ℕ → α) (first count : ℕ)
    (arr : ℕ → Option α) : ℕ → Option α :=
  fun i => if first ≤ i ∧ i < first + count then some (f i) else arr i

/-- The fork-join phase: worker `w` writes the indices of `workRange N W w`;
because ranges are disjoint and each slot gets the pure per-point value, the
fold over workers models any interleaving. -/
def runWorkers {α : Type} (f : ℕ → α) (N W : ℕ) : ℕ → Option α :=
  (List.range W).foldl
    (fun arr w => writeRange f (workRange N W w).1 (workRange N W w).2 arr)
    fun _ => none

/-- Per-index result of the parallel phase: the search applied to the
feature point at that index. -/
def pointResultAt {d : ℕ} (fixed moving : ImageGeom d) (r sr : Fin d → ℕ)
    (points : List (PhysPoint d)) (idx : ℕ) : PhysPoint d × ℚ :=
  searchPoint fixed moving r sr (points.getD idx fun _ => 0)

/-- The threaded phase over all workers. -/
def threadedPhase {d : ℕ} (fixed moving : ImageGeom d) (r sr : Fin d → ℕ)
    (points : List (PhysPoint d)) (W : ℕ) : ℕ → Option (PhysPoint d × ℚ) :=
  runWorkers (pointResultAt fixed moving r sr points) points.length W

/-- Errors surfaced before the parallel phase is dispatched. -/
inductive BlockMatchingError
  | invalidPointsCount
  | missingRequiredInput
deriving DecidableEq

/-- Points count as read in `BeforeThreadedGenerateData`, lines 176 to 181:
zero when the feature-point input is absent, otherwise its length. -/
def pointsCountOf {d : ℕ} (fp : Option (List (PhysPoint d))) : ℕ :=
  match fp with
  | none => 0
  | some ps => ps.length

/-- Validation step of `BeforeThreadedGenerateData`, lines 176 to 190:
raise when fewer than one feature point, otherwise report the count for
which the two result arrays are then allocated. -/
def beforeThreadedGenerateData {d : ℕ} (fp : Option (List (PhysPoint d))) :
    Except BlockMatchingError ℕ :=
  let n := pointsCountOf fp
  if n < 1 then .error .invalidPointsCount else .ok n

/-- The two per-execution result arrays still owned by the filter; `none`
after they have been released. -/
structure ResultArraysState (d : ℕ) where
  displacementsVectorsArray : Option (ℕ → PhysPoint d)
  similaritiesValuesArray : Option (ℕ → ℚ)

/-- The two emitted output point collections: points paired with per-point
displacement data and points paired with per-point similarity data. -/
structure PointSetPair (d : ℕ) where
  displacements : List (PhysPoint d × PhysPoint d)
  similarities : List (PhysPoint d × ℚ)

/-- Assembly step of `AfterThreadedGenerateData`, lines 198 to 244: for `i`
from 0 to `n - 1` insert point `i` and its array entries into the output
collections, then release both arrays. -/
def afterThreadedGenerateData {d : ℕ} (points : List (PhysPoint d)) (n : ℕ)
    (dispArr : ℕ → PhysPoint d) (simArr : ℕ → ℚ) :
    PointSetPair d × ResultArraysState d :=
  (⟨(List.range n).foldl (fun acc i => acc ++ [(points.getD i fun _ => 0, dispArr i)]) [],
    (List.range n).foldl (fun acc i => acc ++ [(points.getD i fun _ => 0, simArr i)]) []⟩,
   ⟨none, none⟩)

/-- Modelled from the spec: the enforcement of `AddRequiredInputName` for
the fixed and moving images lives in the pipeline machinery
(`ProcessObject`), which is not part of the sampled source; the spec states
that execution fails synchronously when a required input is missing. -/
def requiredInputsPresent {d : ℕ} (fixedOpt movingOpt : Option (ImageGeom d)) : Bool :=
  fixedOpt.isSome && movingOpt.isSome

/-- A trivially inhabited geometry, used only to unwrap present options. -/
def defaultGeom (d : ℕ) : ImageGeom d :=
  ⟨fun _ => 0, fun _ _ => 0, fun _ _ => 0⟩

/-- One full execution (`GenerateData`, lines 121 to 138): check required
inputs, validate the point count, run the workers, assemble the outputs.
An error leaves no output collections at all. -/
def generateData {d : ℕ} (fixedOpt movingOpt : Option (ImageGeom d))
    (fp : Option (List (PhysPoint d))) (r sr : Fin d → ℕ) (W : ℕ) :
    Except BlockMatchingError (PointSetPair d) :=
  if requiredInputsPresent fixedOpt movingOpt then
    match beforeThreadedGenerateData fp with
    | .error e => .error e
    | .ok n =>
      let points := fp.getD []
      let fixed := fixedOpt.getD (defaultGeom d)
      let moving := movingOpt.getD (defaultGeom d)
      let arr := runWorkers (pointResultAt fixed moving r sr points) n W
      let dispArr := fun i => ((arr i).getD (fun _ => 0, 0)).1
      let simArr := fun i => ((arr i).getD (fun _ => 0, 0)).2
      .ok (afterThreadedGenerateData points n dispArr simArr).1
  else
    .error .missingRequiredInput

/-- Sum of pixel values of the block of radius `r` anchored at `anchor`. -/
def blockSum {d : ℕ} (img : Image d) (anchor : Index d) (r : Fin d → ℕ) : ℚ :=
  ((blockOffsetsList r).map fun o => img (anchor + o)).sum

/-- Sum of squared pixel values of the block anchored at `anchor`. -/
def blockSumOfSquares {d : ℕ} (img : Image d) (anchor : Index d) (r : Fin d → ℕ) : ℚ :=
  ((blockOffsetsList r).map fun o => img (anchor + o) * img (anchor + o)).sum

/-- Cross sum of the two blocks: the fixed-image block anchored at
`fixedAnchor` paired voxelwise with the moving-image block anchored at
`movingAnchor`. -/
def blockCross {d : ℕ} (fixed moving : Image d) (fixedAnchor movingAnchor : Index d)
    (r : Fin d → ℕ) : ℚ :=
  ((blockOffsetsList r).map fun o => fixed (fixedAnchor + o) * moving (movingAnchor + o)).sum

/-- Variance of the candidate (fixed-image) block as the source computes it
from the running sums. -/
def fixedVarianceAt {d : ℕ} (fixed : Image d) (r : Fin d → ℕ) (cand : Index d) : ℚ :=
  varOf (blockSum fixed cand r) (blockSumOfSquares fixed cand r) (numberOfVoxelInBlock r)

/-- Variance of the center (moving-image) block as the source computes it
from the running sums. -/
def movingVarianceAt {d : ℕ} (moving : Image d) (r : Fin d → ℕ) (mi : Index d) : ℚ :=
  varOf (blockSum moving mi r) (blockSumOfSquares moving mi r) (numberOfVoxelInBlock r)

/-- A block is constant when all its pixel values agree. -/
def blockConstant {d : ℕ} (img : Image d) (anchor : Index d) (r : Fin d → ℕ) : Prop :=
  ∀ o₁ ∈ blockOffsetsList r, ∀ o₂ ∈ blockOffsetsList r, img (anchor + o₁) = img (anchor + o₂)

instance {d : ℕ} (img : Image d) (anchor : Index d) (r : Fin d → ℕ) :
    Decidable (blockConstant img anchor r) := by
  unfold blockConstant
  infer_instance

/-- Division with an explicit zero-divisor check, making each division of
the similarity computation observable. -/
def divChecked (x y : ℚ) : Option ℚ :=
  if y = 0 then none else some (x / y)

/-- The similarity computation of lines 346 to 356 with every division
checked: the two means divide by the voxel count, and the final division by
the product of variances is guarded. -/
def simFromStatsChecked (s : BlockStats) (n : ℕ) : Option ℚ :=
  (divChecked s.fixedSum n).bind fun fixedMean =>
    (divChecked s.movingSum n).bind fun movingMean =>
      let fixedVariance := s.fixedSumOfSquares - n * fixedMean * fixedMean
      let movingVariance := s.movingSumOfSquares - n * movingMean * movingMean
      let cov := s.covariance - n * fixedMean * movingMean
      if fixedVariance * movingVariance ≠ 0 then
        divChecked (cov * cov) (fixedVariance * movingVariance)
      else
        some 0

/-- The per-candidate similarity with checked divisions. -/
def simAtCandidateChecked {d : ℕ} (fixed moving : Image d) (r : Fin d → ℕ)
    (mi cand : Index d) : Option ℚ :=
  simFromStatsChecked (computeBlockStats fixed moving r mi cand) (numberOfVoxelInBlock r)

/-- The window of candidate centers of a feature point as the code computes
it: lines 315 and 316 anchor it at `fixedIndex - SearchRadius`, so it is
centered on the mapped index in the first (fixed) image. -/
def windowOfPoint {d : ℕ} (fixed : ImageGeom d) (sr : Fin d → ℕ) (pt : PhysPoint d) :
    List (Index d) :=
  candidateList (fixed.physToIndex pt) sr

/-- The window of candidate centers as the specification words it, for the
refinement comparison: a box of size `1 + 2 * SearchRadius` per axis
centered on the mapped index in the second (moving) image. -/
def specWindowOfPoint {d : ℕ} (moving : ImageGeom d) (sr : Fin d → ℕ) (pt : PhysPoint d) :
    List (Index d) :=
  (rasterOffsets d fun i => 1 + 2 * sr i).map fun o => windowStart (moving.physToIndex pt) sr + o

/-- One-dimensional geometry with constant-zero pixels, both coordinate
mappings sending the origin to index zero. -/
def constGeom1 : ImageGeom 1 :=
  ⟨fun _ => 0, fun _ _ => 0, fun c i => (c i : ℚ)⟩

/-- One-dimensional geometry whose pixel value is the index itself (a
linear ramp), mapping every physical point to index zero. -/
def rampGeom1 : ImageGeom 1 :=
  ⟨fun c => (c 0 : ℚ), fun _ _ => 0, fun c i => (c i : ℚ)⟩

/-- One-dimensional geometry mapping every physical point to index five. -/
def shiftGeom1 : ImageGeom 1 :=
  ⟨fun _ => 0, fun _ _ => 5, fun c i => (c i : ℚ)⟩

/-- One-dimensional ramp image. -/
def rampImage1 : Image 1 :=
  fun c => (c 0 : ℚ)

/-- One-dimensional constant-zero image. -/
def zeroImage1 : Image 1 :=
  fun _ => 0

section RasterLemmas

/-- Membership in the raster enumeration is exactly the per-axis box bound. -/
theorem mem_rasterOffsets {d : ℕ} {sz : Fin d → ℕ} {o : Index d} :
    o ∈ rasterOffsets d sz ↔ ∀ i, 0 ≤ o i ∧ o i < sz i := by
  induction d with
  | zero =>
    simp only [rasterOffsets, List.mem_singleton]
    constructor
    · intro _ i
      exact i.elim0
    · intro _
      funext i
      exact i.elim0
  | succ d ih =>
    simp only [rasterOffsets, List.mem_flatMap, List.mem_map, List.mem_range]
    constructor
    · rintro ⟨k, hk, p, hp, rfl⟩ i
      refine Fin.lastCases ?_ ?_ i
      · simp only [Fin.snoc_last]
        exact ⟨Int.natCast_nonneg k, by exact_mod_cast hk⟩
      · intro j
        simp only [Fin.snoc_castSucc]
        exact ih.mp hp j
    · intro h
      refine ⟨(o (Fin.last d)).toNat, ?_, Fin.init o, ih.mpr fun j => h j.castSucc, ?_⟩
      · have h1 := (h (Fin.last d)).1
        have h2 := (h (Fin.last d)).2
        omega
      · have h1 := (h (Fin.last d)).1
        rw [Int.toNat_of_nonneg h1]
        exact Fin.snoc_init_self o

/-- The raster enumeration has no duplicates. -/
theorem rasterOffsets_nodup {d : ℕ} (sz : Fin d → ℕ) : (rasterOffsets d sz).Nodup := by
  induction d with
  | zero => simp [rasterOffsets]
  | succ d ih =>
    rw [rasterOffsets, List.nodup_flatMap]
    constructor
    · intro k _
      exact (ih _).map fun p q hpq => by
        have := congrArg (fun f => Fin.init f) hpq
        simpa [Fin.init_snoc] using this
    · rw [List.pairwise_iff_get]
      intro a b hab
      simp only [Function.onFun, List.disjoint_left]
      rintro x hx hx'
      simp only [List.mem_map] at hx hx'
      obtain ⟨p, _, rfl⟩ := hx
      obtain ⟨q, _, hq⟩ := hx'
      have hlast := congrArg (fun f => f (Fin.last d)) hq
      simp only [Fin.snoc_last] at hlast
      have : ((List.range (sz (Fin.last d))).get b : ℤ) = ((List.range (sz (Fin.last d))).get a : ℤ) :=
        hlast
      have hab' : (List.range (sz (Fin.last d))).get a = (List.range (sz (Fin.last d))).get b := by
        exact_mod_cast this.symm
      have hnd : (List.range (sz (Fin.last d))).Nodup := List.nodup_range _
      have := (List.Nodup.get_inj_iff hnd).mp hab'
      omega

/-- Length of the raster enumeration: the product of the sizes. -/
theorem rasterOffsets_length {d : ℕ} (sz : Fin d → ℕ) :
    (rasterOffsets d sz).length = ∏ i, sz i := by
  induction d with
  | zero =>
    rw [rasterOffsets, Finset.univ_eq_empty, Finset.prod_empty]
    rfl
  | succ d ih =>
    rw [rasterOffsets, List.length_flatMap, Fin.prod_univ_castSucc]
    simp only [Function.comp_def, List.length_map, ih]
    rw [List.map_const', List.sum_replicate, List.length_range, smul_eq_mul]
    ring

end RasterLemmas

section BlockLemmas

/-- Membership in the block offset list is the per-axis radius bound. -/
theorem mem_blockOffsetsList {d : ℕ} {r : Fin d → ℕ} {o : Index d} :
    o ∈ blockOffsetsList r ↔ ∀ i, -(r i : ℤ) ≤ o i ∧ o i ≤ r i := by
  simp only [blockOffsetsList, List.mem_map]
  constructor
  · rintro ⟨p, hp, rfl⟩ i
    have h := mem_rasterOffsets.mp hp i
    push_cast at h ⊢
    omega
  · intro h
    refine ⟨fun i => o i + r i, mem_rasterOffsets.mpr fun i => ?_, ?_⟩
    · have := h i
      push_cast
      omega
    · funext i
      ring

/-- The block offset list has no duplicates. -/
theorem blockOffsetsList_nodup {d : ℕ} (r : Fin d → ℕ) : (blockOffsetsList r).Nodup := by
  refine (rasterOffsets_nodup _).map fun p q hpq => ?_
  funext i
  have := congrArg (fun f => f i + (r i : ℤ)) hpq
  simpa using this

/-- The block has exactly `numberOfVoxelInBlock r` voxels. -/
theorem blockOffsetsList_length {d : ℕ} (r : Fin d → ℕ) :
    (blockOffsetsList r).length = numberOfVoxelInBlock r := by
  rw [blockOffsetsList, List.length_map, rasterOffsets_length, numberOfVoxelInBlock]
  exact Finset.prod_congr rfl fun i _ => by ring

/-- The block voxel count is positive. -/
theorem numberOfVoxelInBlock_pos {d : ℕ} (r : Fin d → ℕ) :
    0 < numberOfVoxelInBlock r :=
  Finset.prod_pos fun i _ => by omega

/-- The block offset set has exactly `numberOfVoxelInBlock r` elements. -/
theorem card_blockOffsets {d : ℕ} (r : Fin d → ℕ) :
    (blockOffsets r).card = numberOfVoxelInBlock r := by
  rw [blockOffsets, List.toFinset_card_of_nodup (blockOffsetsList_nodup r),
    blockOffsetsList_length]

/-- Unrolling of the statistics fold: each field is the running sum over the
visited offsets, added to the initial accumulator. -/
theorem foldl_statsStep {d : ℕ} (fixed moving : Image d) (mi cand : Index d)
    (l : List (Index d)) (s : BlockStats) :
    l.foldl (statsStep fixed moving mi cand) s =
      ⟨s.fixedSum + (l.map fun o => fixed (cand + o)).sum,
       s.fixedSumOfSquares + (l.map fun o => fixed (cand + o) * fixed (cand + o)).sum,
       s.movingSum + (l.map fun o => moving (mi + o)).sum,
       s.movingSumOfSquares + (l.map fun o => moving (mi + o) * moving (mi + o)).sum,
       s.covariance + (l.map fun o => fixed (cand + o) * moving (mi + o)).sum⟩ := by
  induction l generalizing s with
  | nil => simp
  | cons a l ih =>
    rw [List.foldl_cons, ih]
    simp only [statsStep, List.map_cons, List.sum_cons, BlockStats.mk.injEq]
    refine ⟨by ring, by ring, by ring, by ring, by ring⟩

/-- The five sums the source accumulates for one candidate, in anchored
form: the fixed-image sums are anchored at the candidate, the moving-image
sums at the mapped moving index, and the cross term pairs the two. -/
theorem computeBlockStats_eq {d : ℕ} (fixed moving : Image d) (r : Fin d → ℕ)
    (mi cand : Index d) :
    computeBlockStats fixed moving r mi cand =
      ⟨blockSum fixed cand r, blockSumOfSquares fixed cand r,
       blockSum moving mi r, blockSumOfSquares moving mi r,
       blockCross fixed moving cand mi r⟩ := by
  rw [computeBlockStats, foldl_statsStep]
  simp only [zero_add]
  rfl

/-- The anchored block sum as a sum over the block offset set. -/
theorem blockSum_eq_finset {d : ℕ} (img : Image d) (anchor : Index d) (r : Fin d → ℕ) :
    blockSum img anchor r = ∑ o ∈ blockOffsets r, img (anchor + o) :=
  (List.sum_toFinset _ (blockOffsetsList_nodup r)).symm

/-- The anchored squared block sum as a sum over the block offset set. -/
theorem blockSumOfSquares_eq_finset {d : ℕ} (img : Image d) (anchor : Index d)
    (r : Fin d → ℕ) :
    blockSumOfSquares img anchor r = ∑ o ∈ blockOffsets r, img (anchor + o) * img (anchor + o) :=
  (List.sum_toFinset _ (blockOffsetsList_nodup r)).symm

/-- The cross sum as a sum over the block offset set. -/
theorem blockCross_eq_finset {d : ℕ} (fixed moving : Image d) (fa ma : Index d)
    (r : Fin d → ℕ) :
    blockCross fixed moving fa ma r = ∑ o ∈ blockOffsets r, fixed (fa + o) * moving (ma + o) :=
  (List.sum_toFinset _ (blockOffsetsList_nodup r)).symm

end BlockLemmas

section VarianceLemmas

/-- Scaling the variance formula by the squared count turns it into a sum of
squared centered values, avoiding division. -/
theorem varOf_card_sq {ι : Type} (B : Finset ι) (a : ι → ℚ) (hn : (B.card : ℚ) ≠ 0) :
    (B.card : ℚ) ^ 2 * varOf (∑ o ∈ B, a o) (∑ o ∈ B, a o * a o) B.card =
      ∑ o ∈ B, ((B.card : ℚ) * a o - ∑ x ∈ B, a x) ^ 2 := by
  have h1 : ∀ o ∈ B, ((B.card : ℚ) * a o - ∑ x ∈ B, a x) ^ 2
      = (B.card : ℚ) ^ 2 * (a o * a o)
        - 2 * (B.card : ℚ) * (∑ x ∈ B, a x) * a o + (∑ x ∈ B, a x) ^ 2 :=
    fun o _ => by ring
  have expand : ∑ o ∈ B, ((B.card : ℚ) * a o - ∑ x ∈ B, a x) ^ 2
      = (B.card : ℚ) ^ 2 * (∑ o ∈ B, a o * a o) - (B.card : ℚ) * (∑ o ∈ B, a o) ^ 2 := by
    rw [Finset.sum_congr rfl h1, Finset.sum_add_distrib, Finset.sum_sub_distrib,
      ← Finset.mul_sum, ← Finset.mul_sum, Finset.sum_const, nsmul_eq_mul]
    ring
  rw [expand, varOf]
  field_simp
  ring

/-- Scaling the covariance formula by the squared count turns it into a sum
of products of centered values. -/
theorem covOf_card_sq {ι : Type} (B : Finset ι) (a b : ι → ℚ) (hn : (B.card : ℚ) ≠ 0) :
    (B.card : ℚ) ^ 2 * covOf (∑ o ∈ B, a o * b o) (∑ o ∈ B, a o) (∑ o ∈ B, b o) B.card =
      ∑ o ∈ B, ((B.card : ℚ) * a o - ∑ x ∈ B, a x) * ((B.card : ℚ) * b o - ∑ x ∈ B, b x) := by
  have h1 : ∀ o ∈ B, ((B.card : ℚ) * a o - ∑ x ∈ B, a x) * ((B.card : ℚ) * b o - ∑ x ∈ B, b x)
      = (B.card : ℚ) ^ 2 * (a o * b o)
        - (B.card : ℚ) * (∑ x ∈ B, a x) * b o
        - (B.card : ℚ) * (∑ x ∈ B, b x) * a o
        + (∑ x ∈ B, a x) * (∑ x ∈ B, b x) :=
    fun o _ => by ring
  have expand : ∑ o ∈ B, ((B.card : ℚ) * a o - ∑ x ∈ B, a x) * ((B.card : ℚ) * b o - ∑ x ∈ B, b x)
      = (B.card : ℚ) ^ 2 * (∑ o ∈ B, a o * b o)
        - (B.card : ℚ) * (∑ o ∈ B, a o) * (∑ o ∈ B, b o) := by
    rw [Finset.sum_congr rfl h1, Finset.sum_add_distrib, Finset.sum_sub_distrib,
      Finset.sum_sub_distrib, ← Finset.mul_sum, ← Finset.mul_sum, ← Finset.mul_sum,
      Finset.sum_const, nsmul_eq_mul]
    ring
  rw [expand, covOf]
  field_simp
  ring

/-- The variance computed from the running sums is nonnegative. -/
theorem varOf_nonneg {ι : Type} (B : Finset ι) (a : ι → ℚ) (hB : B.Nonempty) :
    0 ≤ varOf (∑ o ∈ B, a o) (∑ o ∈ B, a o * a o) B.card := by
  have hn : (B.card : ℚ) ≠ 0 := by
    have := Finset.card_pos.mpr hB
    positivity
  have hsq : (0 : ℚ) < (B.card : ℚ) ^ 2 := by positivity
  have h := varOf_card_sq B a hn
  nlinarith [Finset.sum_nonneg fun o (_ : o ∈ B) =>
    sq_nonneg ((B.card : ℚ) * a o - ∑ x ∈ B, a x)]

/-- The variance computed from the running sums vanishes exactly when the
values are constant on the block. -/
theorem varOf_eq_zero_iff {ι : Type} (B : Finset ι) (a : ι → ℚ) (hB : B.Nonempty) :
    varOf (∑ o ∈ B, a o) (∑ o ∈ B, a o * a o) B.card = 0 ↔
      ∀ o₁ ∈ B, ∀ o₂ ∈ B, a o₁ = a o₂ := by
  have hn : (B.card : ℚ) ≠ 0 := by
    have := Finset.card_pos.mpr hB
    positivity
  have hid := varOf_card_sq B a hn
  constructor
  · intro h0
    have hsum : ∑ o ∈ B, ((B.card : ℚ) * a o - ∑ x ∈ B, a x) ^ 2 = 0 := by
      rw [← hid, h0, mul_zero]
    have hall := (Finset.sum_eq_zero_iff_of_nonneg
      fun o (_ : o ∈ B) => sq_nonneg ((B.card : ℚ) * a o - ∑ x ∈ B, a x)).mp hsum
    intro o₁ h₁ o₂ h₂
    have e₁ : (B.card : ℚ) * a o₁ = ∑ x ∈ B, a x := by
      have := hall o₁ h₁
      have := pow_eq_zero_iff (n := 2) (by norm_num) |>.mp this
      linarith
    have e₂ : (B.card : ℚ) * a o₂ = ∑ x ∈ B, a x := by
      have := hall o₂ h₂
      have := pow_eq_zero_iff (n := 2) (by norm_num) |>.mp this
      linarith
    have : (B.card : ℚ) * a o₁ = (B.card : ℚ) * a o₂ := by rw [e₁, e₂]
    exact mul_left_cancel₀ hn this
  · intro hconst
    obtain ⟨o₀, ho₀⟩ := hB
    have hsumeq : ∑ x ∈ B, a x = (B.card : ℚ) * a o₀ := by
      have : ∀ x ∈ B, a x = a o₀ := fun x hx => hconst x hx o₀ ho₀
      rw [Finset.sum_congr rfl this, Finset.sum_const, nsmul_eq_mul]
    have hzero : ∑ o ∈ B, ((B.card : ℚ) * a o - ∑ x ∈ B, a x) ^ 2 = 0 := by
      refine Finset.sum_eq_zero fun o ho => ?_
      have : a o = a o₀ := hconst o ho o₀ ho₀
      rw [hsumeq, this]
      ring
    have hsq : ((B.card : ℚ) ^ 2) ≠ 0 := pow_ne_zero _ hn
    have := hid.trans hzero
    exact (mul_eq_zero.mp this).resolve_left hsq

/-- Cauchy-Schwarz for the running-sum covariance and variances. -/
theorem covOf_sq_le {ι : Type} (B : Finset ι) (a b : ι → ℚ) (hB : B.Nonempty) :
    covOf (∑ o ∈ B, a o * b o) (∑ o ∈ B, a o) (∑ o ∈ B, b o) B.card *
      covOf (∑ o ∈ B, a o * b o) (∑ o ∈ B, a o) (∑ o ∈ B, b o) B.card ≤
    varOf (∑ o ∈ B, a o) (∑ o ∈ B, a o * a o) B.card *
      varOf (∑ o ∈ B, b o) (∑ o ∈ B, b o * b o) B.card := by
  have hn : (B.card : ℚ) ≠ 0 := by
    have := Finset.card_pos.mpr hB
    positivity
  set x := fun o => (B.card : ℚ) * a o - ∑ i ∈ B, a i with hx
  set y := fun o => (B.card : ℚ) * b o - ∑ i ∈ B, b i with hy
  have hcs := Finset.sum_mul_sq_le_sq_mul_sq B x y
  have hvA := varOf_card_sq B a hn
  have hvB := varOf_card_sq B b hn
  have hcv := covOf_card_sq B a b hn
  have hsq : (0 : ℚ) < (B.card : ℚ) ^ 2 := by positivity
  have key : ((B.card : ℚ) ^ 2 * covOf (∑ o ∈ B, a o * b o) (∑ o ∈ B, a o) (∑ o ∈ B, b o) B.card) ^ 2
      ≤ ((B.card : ℚ) ^ 2 * varOf (∑ o ∈ B, a o) (∑ o ∈ B, a o * a o) B.card) *
        ((B.card : ℚ) ^ 2 * varOf (∑ o ∈ B, b o) (∑ o ∈ B, b o * b o) B.card) := by
    rw [hvA, hvB, hcv]
    exact hcs
  have h4 : (0 : ℚ) < ((B.card : ℚ) ^ 2) ^ 2 := by positivity
  have e1 : ((B.card : ℚ) ^ 2 * covOf (∑ o ∈ B, a o * b o) (∑ o ∈ B, a o) (∑ o ∈ B, b o) B.card) ^ 2
      = ((B.card : ℚ) ^ 2) ^ 2 *
        (covOf (∑ o ∈ B, a o * b o) (∑ o ∈ B, a o) (∑ o ∈ B, b o) B.card *
          covOf (∑ o ∈ B, a o * b o) (∑ o ∈ B, a o) (∑ o ∈ B, b o) B.card) := by
    ring
  have e2 : (B.card : ℚ) ^ 2 * varOf (∑ o ∈ B, a o) (∑ o ∈ B, a o * a o) B.card *
        ((B.card : ℚ) ^ 2 * varOf (∑ o ∈ B, b o) (∑ o ∈ B, b o * b o) B.card)
      = ((B.card : ℚ) ^ 2) ^ 2 *
        (varOf (∑ o ∈ B, a o) (∑ o ∈ B, a o * a o) B.card *
          varOf (∑ o ∈ B, b o) (∑ o ∈ B, b o * b o) B.card) := by
    ring
  rw [e1, e2] at key
  exact le_of_mul_le_mul_left key h4

end VarianceLemmas

section BlockVarianceLemmas

/-- The block offset set is nonempty. -/
theorem blockOffsets_nonempty {d : ℕ} (r : Fin d → ℕ) : (blockOffsets r).Nonempty :=
  Finset.card_pos.mp (by rw [card_blockOffsets]; exact numberOfVoxelInBlock_pos r)

/-- The similarity at a candidate, written through the variance and
covariance formulas applied to the anchored block sums. -/
theorem simAtCandidate_eq {d : ℕ} (fixed moving : Image d) (r : Fin d → ℕ)
    (mi cand : Index d) :
    simAtCandidate fixed moving r mi cand =
      simOf (fixedVarianceAt fixed r cand) (movingVarianceAt moving r mi)
        (covOf (blockCross fixed moving cand mi r) (blockSum fixed cand r)
          (blockSum moving mi r) (numberOfVoxelInBlock r)) := by
  rw [simAtCandidate, computeBlockStats_eq]
  rfl

/-- The candidate-block variance is nonnegative. -/
theorem fixedVarianceAt_nonneg {d : ℕ} (fixed : Image d) (r : Fin d → ℕ) (cand : Index d) :
    0 ≤ fixedVarianceAt fixed r cand := by
  rw [fixedVarianceAt, blockSum_eq_finset, blockSumOfSquares_eq_finset, ← card_blockOffsets]
  exact varOf_nonneg _ _ (blockOffsets_nonempty r)

/-- The center-block variance is nonnegative. -/
theorem movingVarianceAt_nonneg {d : ℕ} (moving : Image d) (r : Fin d → ℕ) (mi : Index d) :
    0 ≤ movingVarianceAt moving r mi := by
  rw [movingVarianceAt, blockSum_eq_finset, blockSumOfSquares_eq_finset, ← card_blockOffsets]
  exact varOf_nonneg _ _ (blockOffsets_nonempty r)

/-- The candidate-block variance vanishes exactly on constant blocks. -/
theorem fixedVarianceAt_eq_zero_iff {d : ℕ} (fixed : Image d) (r : Fin d → ℕ)
    (cand : Index d) :
    fixedVarianceAt fixed r cand = 0 ↔ blockConstant fixed cand r := by
  rw [fixedVarianceAt, blockSum_eq_finset, blockSumOfSquares_eq_finset, ← card_blockOffsets,
    varOf_eq_zero_iff _ _ (blockOffsets_nonempty r)]
  unfold blockConstant
  constructor
  · intro h o₁ h₁ o₂ h₂
    exact h o₁ (List.mem_toFinset.mpr h₁) o₂ (List.mem_toFinset.mpr h₂)
  · intro h o₁ h₁ o₂ h₂
    exact h o₁ (List.mem_toFinset.mp h₁) o₂ (List.mem_toFinset.mp h₂)

/-- The center-block variance vanishes exactly on constant blocks. -/
theorem movingVarianceAt_eq_zero_iff {d : ℕ} (moving : Image d) (r : Fin d → ℕ)
    (mi : Index d) :
    movingVarianceAt moving r mi = 0 ↔ blockConstant moving mi r := by
  rw [movingVarianceAt, blockSum_eq_finset, blockSumOfSquares_eq_finset, ← card_blockOffsets,
    varOf_eq_zero_iff _ _ (blockOffsets_nonempty r)]
  unfold blockConstant
  constructor
  · intro h o₁ h₁ o₂ h₂
    exact h o₁ (List.mem_toFinset.mpr h₁) o₂ (List.mem_toFinset.mpr h₂)
  · intro h o₁ h₁ o₂ h₂
    exact h o₁ (List.mem_toFinset.mp h₁) o₂ (List.mem_toFinset.mp h₂)

/-- Cauchy-Schwarz for the covariance of the two anchored blocks. -/
theorem covariance_sq_le {d : ℕ} (fixed moving : Image d) (r : Fin d → ℕ)
    (mi cand : Index d) :
    covOf (blockCross fixed moving cand mi r) (blockSum fixed cand r)
        (blockSum moving mi r) (numberOfVoxelInBlock r) *
      covOf (blockCross fixed moving cand mi r) (blockSum fixed cand r)
        (blockSum moving mi r) (numberOfVoxelInBlock r) ≤
    fixedVarianceAt fixed r cand * movingVarianceAt moving r mi := by
  rw [fixedVarianceAt, movingVarianceAt, blockSum_eq_finset, blockSum_eq_finset,
    blockSumOfSquares_eq_finset, blockSumOfSquares_eq_finset, blockCross_eq_finset,
    ← card_blockOffsets]
  exact covOf_sq_le (blockOffsets r) (fun o => fixed (cand + o)) (fun o => moving (mi + o))
    (blockOffsets_nonempty r)

/-- Guarded similarity is confined to the unit interval when the covariance
obeys the Cauchy-Schwarz bound. -/
theorem simOf_bounds (varA varB cov : ℚ) (hA : 0 ≤ varA) (hB : 0 ≤ varB)
    (hc : cov * cov ≤ varA * varB) :
    0 ≤ simOf varA varB cov ∧ simOf varA varB cov ≤ 1 := by
  rw [simOf]
  split
  case isTrue h =>
    have hpos : 0 < varA * varB := lt_of_le_of_ne (mul_nonneg hA hB) (Ne.symm h)
    exact ⟨div_nonneg (mul_self_nonneg cov) hpos.le, (div_le_one hpos).mpr hc⟩
  case isFalse h => exact ⟨le_refl 0, by norm_num⟩

/-- Guarded similarity is zero whenever the product of variances vanishes. -/
theorem simOf_of_mul_eq_zero {varA varB cov : ℚ} (h : varA * varB = 0) :
    simOf varA varB cov = 0 := by
  rw [simOf, if_neg fun hne => hne h]

end BlockVarianceLemmas

section ScanLemmas

/-- The retained similarity never exceeds a bound satisfied by the initial
value and every visited candidate. -/
theorem scanCandidates_sim_le {d : ℕ} (simAt : Index d → ℚ) (dispAt : Index d → PhysPoint d)
    (m : ℚ) (init : PhysPoint d × ℚ) (cs : List (Index d))
    (hinit : init.2 ≤ m) (h : ∀ c ∈ cs, simAt c ≤ m) :
    (scanCandidates simAt dispAt init cs).2 ≤ m := by
  induction cs generalizing init with
  | nil => exact hinit
  | cons a cs ih =>
    rw [scanCandidates, List.foldl_cons]
    refine ih (scanStep simAt dispAt init a) ?_ fun c hc => h c (List.mem_cons_of_mem a hc)
    rw [scanStep]
    split
    · exact h a (List.mem_cons_self a cs)
    · exact hinit

/-- Candidates scoring strictly below the retained similarity never replace
it. -/
theorem scanCandidates_keep {d : ℕ} (simAt : Index d → ℚ) (dispAt : Index d → PhysPoint d)
    (init : PhysPoint d × ℚ) (cs : List (Index d))
    (h : ∀ c ∈ cs, simAt c < init.2) :
    scanCandidates simAt dispAt init cs = init := by
  induction cs with
  | nil => rfl
  | cons a cs ih =>
    rw [scanCandidates, List.foldl_cons, scanStep,
      if_neg (not_le.mpr (h a (List.mem_cons_self a cs)))]
    exact ih fun c hc => h c (List.mem_cons_of_mem a hc)

/-- With every candidate scoring zero and a zero initial accumulator, the
retained similarity is zero. -/
theorem scanCandidates_sim_zero {d : ℕ} (simAt : Index d → ℚ) (dispAt : Index d → PhysPoint d)
    (init : PhysPoint d × ℚ) (cs : List (Index d))
    (h : ∀ c ∈ cs, simAt c = 0) (hinit : init.2 = 0) :
    (scanCandidates simAt dispAt init cs).2 = 0 := by
  induction cs generalizing init with
  | nil => exact hinit
  | cons a cs ih =>
    rw [scanCandidates, List.foldl_cons]
    refine ih (scanStep simAt dispAt init a) (fun c hc => h c (List.mem_cons_of_mem a hc)) ?_
    rw [scanStep]
    split
    · exact h a (List.mem_cons_self a cs)
    · exact hinit

/-- Core of the tie-break rule: if candidate `c` scores at least as high as
everything before it and strictly higher than everything after it, then the
scan returns exactly `c`. -/
theorem scanCandidates_last_max {d : ℕ} (simAt : Index d → ℚ) (dispAt : Index d → PhysPoint d)
    (l₁ l₂ : List (Index d)) (c : Index d)
    (h0 : 0 ≤ simAt c) (h1 : ∀ x ∈ l₁, simAt x ≤ simAt c) (h2 : ∀ x ∈ l₂, simAt x < simAt c) :
    scanCandidates simAt dispAt (fun _ => 0, 0) (l₁ ++ c :: l₂) = (dispAt c, simAt c) := by
  rw [scanCandidates, List.foldl_append, List.foldl_cons]
  have hle : (List.foldl (scanStep simAt dispAt) (fun _ => 0, 0) l₁).2 ≤ simAt c :=
    scanCandidates_sim_le simAt dispAt (simAt c) _ l₁ h0 h1
  rw [show scanStep simAt dispAt (List.foldl (scanStep simAt dispAt) (fun _ => 0, 0) l₁) c
      = (dispAt c, simAt c) from by rw [scanStep, if_pos hle]]
  exact scanCandidates_keep simAt dispAt _ l₂ h2

end ScanLemmas

section PartitionLemmas

/-- The non-last work ranges have count `N / W`. -/
theorem workRange_count_of_not_last (N W w : ℕ) (h : w + 1 < W) :
    (workRange N W w).2 = N / W := by
  rw [workRange]
  exact if_neg (by omega)

/-- The last work range has count `N / W + N % W`. -/
theorem workRange_count_last (N W : ℕ) (hW : 1 ≤ W) :
    (workRange N W (W - 1)).2 = N / W + N % W := by
  rw [workRange]
  exact if_pos (by omega)

/-- Every work range of a worker below `W` lies inside `[0, N)`. -/
theorem inWorkRange_lt (N W w i : ℕ) (hw : w < W) (h : inWorkRange N W w i) : i < N := by
  obtain ⟨h1, h2⟩ := h
  simp only [workRange] at h1 h2
  have hdm : W * (N / W) + N % W = N := Nat.div_add_mod N W
  by_cases hlast : w + 1 = W
  · rw [if_pos hlast] at h2
    have hWeq : w * (N / W) + N / W = W * (N / W) := by
      calc w * (N / W) + N / W = (w + 1) * (N / W) := by ring
        _ = W * (N / W) := by rw [hlast]
    omega
  · rw [if_neg hlast] at h2
    have hw1 : w + 1 ≤ W := hw
    have hWeq : w * (N / W) + N / W = (w + 1) * (N / W) := by ring
    have hle : (w + 1) * (N / W) ≤ W * (N / W) := Nat.mul_le_mul_right _ hw1
    omega

/-- Every index below `N` is covered by the range of some worker below `W`. -/
theorem workRange_cover (N W i : ℕ) (hW : 1 ≤ W) (hi : i < N) :
    ∃ w, w < W ∧ inWorkRange N W w i := by
  have hdm : W * (N / W) + N % W = N := Nat.div_add_mod N W
  have hlastend : (W - 1) * (N / W) + N / W = W * (N / W) := by
    calc (W - 1) * (N / W) + N / W = (W - 1 + 1) * (N / W) := by ring
      _ = W * (N / W) := by rw [Nat.sub_add_cancel hW]
  by_cases hbpos : 0 < N / W
  · by_cases hqlt : i / (N / W) < W - 1
    · refine ⟨i / (N / W), by omega, ?_, ?_⟩
      · simp only [workRange]
        exact Nat.div_mul_le_self i (N / W)
      · simp only [workRange]
        rw [if_neg (by omega)]
        have hlt := Nat.lt_div_mul_add (a := i) hbpos
        omega
    · refine ⟨W - 1, by omega, ?_, ?_⟩
      · simp only [workRange]
        have hmle : (W - 1) * (N / W) ≤ i / (N / W) * (N / W) :=
          Nat.mul_le_mul_right _ (by omega)
        have hdle : i / (N / W) * (N / W) ≤ i := Nat.div_mul_le_self i (N / W)
        omega
      · simp only [workRange]
        rw [if_pos (by omega)]
        have hend : (W - 1) * (N / W) + (N / W + N % W) = N := by
          rw [← Nat.add_assoc, hlastend, hdm]
        rw [hend]
        exact hi
  · have hz : N / W = 0 := Nat.le_zero.mp (Nat.not_lt.mp hbpos)
    refine ⟨W - 1, by omega, ?_, ?_⟩
    · simp only [workRange, hz, Nat.mul_zero]
      omega
    · simp only [workRange, hz, Nat.mul_zero]
      rw [if_pos (by omega)]
      have hz' : W * (N / W) = 0 := by rw [hz, Nat.mul_zero]
      omega

/-- Distinct workers have disjoint ranges. -/
theorem workRange_disjoint (N W w w' i : ℕ) (hw : w < W) (hw' : w' < W) (hne : w ≠ w')
    (h : inWorkRange N W w i) (h' : inWorkRange N W w' i) : False := by
  wlog hlt : w < w' generalizing w w'
  · exact this w' w hw' hw (Ne.symm hne) h' h (by omega)
  obtain ⟨h1, h2⟩ := h
  obtain ⟨h1', _⟩ := h'
  simp only [workRange] at h1 h2 h1'
  rw [if_neg (by omega : ¬w + 1 = W)] at h2
  have hs : w * (N / W) + N / W = (w + 1) * (N / W) := by ring
  have hle : (w + 1) * (N / W) ≤ w' * (N / W) := Nat.mul_le_mul_right _ (by omega)
  omega

/-- Consecutive ranges are contiguous. -/
theorem workRange_contiguous (N W w : ℕ) (h : w + 1 < W) :
    (workRange N W (w + 1)).1 = (workRange N W w).1 + (workRange N W w).2 := by
  simp only [workRange]
  rw [if_neg (by omega : ¬w + 1 = W)]
  ring

end PartitionLemmas

section WorkerLemmas

/-- Value of the result array after a list of workers has written its
ranges: an index covered by some listed worker holds its per-point result,
any other index is untouched. -/
theorem foldWrites_apply {α : Type} (f : ℕ → α) (N W : ℕ) (ws : List ℕ)
    (arr : ℕ → Option α) (i : ℕ) :
    (ws.foldl (fun a w => writeRange f (workRange N W w).1 (workRange N W w).2 a) arr) i =
      if ∃ w ∈ ws, inWorkRange N W w i then some (f i) else arr i := by
  induction ws generalizing arr with
  | nil => simp
  | cons w ws ih =>
    rw [List.foldl_cons, ih]
    by_cases hrest : ∃ w' ∈ ws, inWorkRange N W w' i
    · obtain ⟨w', hw', hin'⟩ := hrest
      rw [if_pos ⟨w', hw', hin'⟩, if_pos ⟨w', List.mem_cons_of_mem w hw', hin'⟩]
    · rw [if_neg hrest]
      by_cases hcur : inWorkRange N W w i
      · have hcur' : (workRange N W w).1 ≤ i ∧
            i < (workRange N W w).1 + (workRange N W w).2 := hcur
        simp only [writeRange]
        rw [if_pos hcur', if_pos ⟨w, List.mem_cons_self w ws, hcur⟩]
      · have hcur' : ¬((workRange N W w).1 ≤ i ∧
            i < (workRange N W w).1 + (workRange N W w).2) := hcur
        simp only [writeRange]
        rw [if_neg hcur', if_neg]
        rintro ⟨w', hw', hin'⟩
        rcases List.mem_cons.mp hw' with h | h
        · exact hcur (h ▸ hin')
        · exact hrest ⟨w', h, hin'⟩

/-- The result array after the fork-join phase, pointwise. -/
theorem runWorkers_apply {α : Type} (f : ℕ → α) (N W i : ℕ) :
    runWorkers f N W i =
      if ∃ w ∈ List.range W, inWorkRange N W w i then some (f i) else none := by
  rw [runWorkers]
  exact foldWrites_apply f N W (List.range W) _ i

/-- Every index below `N` holds its per-point result after the fork-join
phase, for any positive worker count. -/
theorem runWorkers_eq {α : Type} (f : ℕ → α) (N W i : ℕ) (hW : 1 ≤ W) (hi : i < N) :
    runWorkers f N W i = some (f i) := by
  rw [runWorkers_apply, if_pos]
  obtain ⟨w, hw, hin⟩ := workRange_cover N W i hW hi
  exact ⟨w, List.mem_range.mpr hw, hin⟩

/-- Unrolling of the insertion loop used by the output assembler. -/
theorem foldl_append_eq {α β : Type} (g : β → α) (l : List β) (init : List α) :
    l.foldl (fun acc i => acc ++ [g i]) init = init ++ l.map g := by
  induction l generalizing init with
  | nil => simp
  | cons a l ih => simp [ih]

end WorkerLemmas

section SimilarityLemmas

/-- The per-candidate similarity is always nonnegative. -/
theorem simAtCandidate_nonneg {d : ℕ} (fixed moving : Image d) (r : Fin d → ℕ)
    (mi cand : Index d) :
    0 ≤ simAtCandidate fixed moving r mi cand := by
  rw [simAtCandidate_eq]
  exact (simOf_bounds _ _ _ (fixedVarianceAt_nonneg fixed r cand)
    (movingVarianceAt_nonneg moving r mi) (covariance_sq_le fixed moving r mi cand)).1

/-- With block radius zero every block is a single voxel, hence constant. -/
theorem blockConstant_of_radius_zero {d : ℕ} (img : Image d) (anchor : Index d) :
    blockConstant img anchor fun _ => 0 := by
  intro o₁ h₁ o₂ h₂
  have e : o₁ = o₂ := by
    funext i
    have b₁ := mem_blockOffsetsList.mp h₁ i
    have b₂ := mem_blockOffsetsList.mp h₂ i
    omega
  rw [e]

/-- The guarded division step returns the guarded quotient, never a
division failure. -/
theorem guardedDiv_eq (A c : ℚ) :
    (if A ≠ 0 then divChecked (c * c) A else some 0)
      = some (if A ≠ 0 then c * c / A else 0) := by
  by_cases hA : A = 0
  · simp [hA]
  · simp [hA, divChecked]

/-- With block radius zero the similarity of every candidate is zero. -/
theorem simAtCandidate_radius_zero {d : ℕ} (fixed moving : Image d) (mi cand : Index d) :
    simAtCandidate fixed moving (fun _ => 0) mi cand = 0 := by
  rw [simAtCandidate_eq]
  apply simOf_of_mul_eq_zero
  rw [(fixedVarianceAt_eq_zero_iff fixed _ cand).mpr (blockConstant_of_radius_zero fixed cand),
    zero_mul]

end SimilarityLemmas

section Claims

attribute [local semireducible] Rat.add Rat.mul Rat.sub Rat.inv Rat.ofScientific

/-- Claim C1, counterexample to the claim as stated: with both images the
same one-dimensional ramp, feature point mapped to index zero in both
images, block radius zero and search radius one, the candidate at index one
lies in the search window, yet the first-image sum the code computes there
differs from the first-image block sum anchored at the original mapped
index (so it is neither anchored there nor constant across candidates), and
the second-image sum differs from the second-image block sum anchored at
the candidate. -/
theorem claim_C1_counterexample :
    ((fun _ => 1 : Index 1) ∈ candidateList (rampGeom1.physToIndex fun _ => 0) fun _ => 1) ∧
    ¬((computeBlockStats rampGeom1.pixels rampGeom1.pixels (fun _ => 0)
          (rampGeom1.physToIndex fun _ => 0) fun _ => 1).fixedSum
        = blockSum rampGeom1.pixels (rampGeom1.physToIndex fun _ => 0) fun _ => 0) ∧
    ¬((computeBlockStats rampGeom1.pixels rampGeom1.pixels (fun _ => 0)
          (rampGeom1.physToIndex fun _ => 0) fun _ => 1).movingSum
        = blockSum rampGeom1.pixels (fun _ => 1) fun _ => 0) := by
  refine ⟨by decide, by decide, by decide⟩

/-- Claim C1 (amended): for every feature point and candidate, the block
statistics the code computes satisfy: the sums over the second (moving)
image are anchored at the original untranslated mapped moving index of the
point and are constant across candidates, while the sums over the first
(fixed) image are anchored at the candidate, and the cross term pairs the
candidate block of the first image with the center block of the second
image; each runs over
`count = product (1 + 2 * BlockRadius i)` voxels. -/
theorem claim_C1 {d : ℕ} (fixed moving : Image d) (r : Fin d → ℕ) (mi cand : Index d) :
    (computeBlockStats fixed moving r mi cand).movingSum = blockSum moving mi r ∧
    (computeBlockStats fixed moving r mi cand).movingSumOfSquares
      = blockSumOfSquares moving mi r ∧
    (computeBlockStats fixed moving r mi cand).fixedSum = blockSum fixed cand r ∧
    (computeBlockStats fixed moving r mi cand).fixedSumOfSquares
      = blockSumOfSquares fixed cand r ∧
    (computeBlockStats fixed moving r mi cand).covariance = blockCross fixed moving cand mi r ∧
    (blockOffsetsList r).length = numberOfVoxelInBlock r := by
  rw [computeBlockStats_eq]
  exact ⟨rfl, rfl, rfl, rfl, rfl, blockOffsetsList_length r⟩

/-- Claim C2, counterexample to the claim as stated: with a fixed-image
geometry mapping the feature point to index zero and a moving-image
geometry mapping it to index five, the window the code enumerates is not
the box centered on the mapped index in the moving image. -/
theorem claim_C2_counterexample :
    windowOfPoint constGeom1 (fun _ => 1) (fun _ => 0)
      ≠ specWindowOfPoint shiftGeom1 (fun _ => 1) (fun _ => 0) := by
  decide

/-- Claim C2 (amended): for every feature point the window of candidate
centers is a duplicate-free box of `product (1 + 2 * SearchRadius i)`
candidates, centered on the mapped index of the point in the first (fixed)
image: a candidate lies in it exactly when each axis coordinate is within
`SearchRadius` of the mapped index in the fixed image. -/
theorem claim_C2 {d : ℕ} (fixed : ImageGeom d) (sr : Fin d → ℕ) (pt : PhysPoint d) :
    (windowOfPoint fixed sr pt).length = (∏ i, (1 + 2 * sr i)) ∧
    (windowOfPoint fixed sr pt).Nodup ∧
    ∀ c : Index d, c ∈ windowOfPoint fixed sr pt ↔
      ∀ i, fixed.physToIndex pt i - sr i ≤ c i ∧ c i ≤ fixed.physToIndex pt i + sr i := by
  refine ⟨?_, ?_, ?_⟩
  · rw [windowOfPoint, candidateList, List.length_map, rasterOffsets_length]
  · refine (rasterOffsets_nodup _).map fun p q hpq => ?_
    funext i
    have := congrArg (fun f => f i - windowStart (fixed.physToIndex pt) sr i) hpq
    simpa using this
  · intro c
    rw [windowOfPoint, candidateList]
    simp only [List.mem_map]
    constructor
    · rintro ⟨o, ho, rfl⟩ i
      have h := mem_rasterOffsets.mp ho i
      simp only [Pi.add_apply, windowStart]
      push_cast at h ⊢
      omega
    · intro h
      refine ⟨fun i => c i - windowStart (fixed.physToIndex pt) sr i,
        mem_rasterOffsets.mpr fun i => ?_, ?_⟩
      · have := h i
        simp only [windowStart]
        push_cast
        omega
      · funext i
        simp [windowStart]

/-- Claim C3: for every point count `N ≥ 1` and worker count `W ≥ 1`, every
worker except the last gets `N / W` points, the last gets `N / W + N % W`,
consecutive ranges are contiguous, distinct ranges are disjoint, and the
union of the ranges is exactly `[0, N)`. -/
theorem claim_C3 (N W : ℕ) (_hN : 1 ≤ N) (hW : 1 ≤ W) :
    (∀ w, w + 1 < W → (workRange N W w).2 = N / W) ∧
    (workRange N W (W - 1)).2 = N / W + N % W ∧
    (∀ w, w + 1 < W →
      (workRange N W (w + 1)).1 = (workRange N W w).1 + (workRange N W w).2) ∧
    (∀ w w' i, w < W → w' < W → w ≠ w' → inWorkRange N W w i → ¬inWorkRange N W w' i) ∧
    (∀ i, i < N ↔ ∃ w, w < W ∧ inWorkRange N W w i) := by
  refine ⟨fun w h => workRange_count_of_not_last N W w h,
    workRange_count_last N W hW,
    fun w h => workRange_contiguous N W w h,
    fun w w' i hw hw' hne h h' => workRange_disjoint N W w w' i hw hw' hne h h',
    fun i => ⟨fun hi => workRange_cover N W i hW hi,
      fun ⟨w, hw, h⟩ => inWorkRange_lt N W w i hw h⟩⟩

/-- Witness for claim C3 at `N = 5`, `W = 2`. -/
theorem claim_C3_witness :
    (1 ≤ 5 ∧ 1 ≤ 2) ∧ (workRange 5 2 (2 - 1)).2 = 5 / 2 + 5 % 2 :=
  ⟨⟨by decide, by decide⟩, (claim_C3 5 2 (by decide) (by decide)).2.1⟩

/-- Claim C4: for fixed inputs, every entry of the result array of the
parallel phase is the same for any worker count `W ≥ 1` as for the
single-worker run. -/
theorem claim_C4 {d : ℕ} (fixed moving : ImageGeom d) (r sr : Fin d → ℕ)
    (points : List (PhysPoint d)) (W i : ℕ) (hW : 1 ≤ W) (hi : i < points.length) :
    threadedPhase fixed moving r sr points W i = threadedPhase fixed moving r sr points 1 i := by
  rw [threadedPhase, threadedPhase, runWorkers_eq _ _ _ _ hW hi,
    runWorkers_eq _ _ _ _ (le_refl 1) hi]

/-- Witness for claim C4: three feature points, two workers, last index. -/
theorem claim_C4_witness :
    (1 ≤ 2 ∧ 2 < ([fun _ => 0, fun _ => 0, fun _ => 0] : List (PhysPoint 1)).length) ∧
    threadedPhase constGeom1 constGeom1 (fun _ => 0) (fun _ => 0)
        [fun _ => 0, fun _ => 0, fun _ => 0] 2 2
      = threadedPhase constGeom1 constGeom1 (fun _ => 0) (fun _ => 0)
        [fun _ => 0, fun _ => 0, fun _ => 0] 1 2 :=
  ⟨⟨by decide, by decide⟩,
    claim_C4 constGeom1 constGeom1 (fun _ => 0) (fun _ => 0)
      [fun _ => 0, fun _ => 0, fun _ => 0] 2 2 (by decide) (by decide)⟩

/-- Claim C5: the selection rule retains the best similarity seen so far
under a non-strict comparison, so if the candidate enumeration splits as
`l₁ ++ c :: l₂` where `c` scores at least as high as everything in `l₁` and
strictly higher than everything in `l₂` (in particular when `c` is the last
of several candidates tied on the exact best score), the search returns
candidate `c`. -/
theorem claim_C5 {d : ℕ} (fixed moving : ImageGeom d) (r sr : Fin d → ℕ) (pt : PhysPoint d)
    (l₁ l₂ : List (Index d)) (c : Index d)
    (hsplit : candidateList (fixed.physToIndex pt) sr = l₁ ++ c :: l₂)
    (h1 : ∀ x ∈ l₁,
      simAtCandidate fixed.pixels moving.pixels r (moving.physToIndex pt) x
        ≤ simAtCandidate fixed.pixels moving.pixels r (moving.physToIndex pt) c)
    (h2 : ∀ x ∈ l₂,
      simAtCandidate fixed.pixels moving.pixels r (moving.physToIndex pt) x
        < simAtCandidate fixed.pixels moving.pixels r (moving.physToIndex pt) c) :
    searchPoint fixed moving r sr pt =
      (dispAtCandidate fixed pt c,
       simAtCandidate fixed.pixels moving.pixels r (moving.physToIndex pt) c) := by
  show scanCandidates (simAtCandidate fixed.pixels moving.pixels r (moving.physToIndex pt))
      (dispAtCandidate fixed pt) (fun _ => 0, 0) (candidateList (fixed.physToIndex pt) sr) = _
  rw [hsplit]
  exact scanCandidates_last_max _ _ l₁ l₂ c
    (simAtCandidate_nonneg fixed.pixels moving.pixels r (moving.physToIndex pt) c) h1 h2

/-- Witness for claim C5: two constant images make all three candidates tie
at similarity zero, and the last-visited candidate (index one) wins. -/
theorem claim_C5_witness :
    (candidateList (constGeom1.physToIndex fun _ => 0) (fun _ => 1)
      = [fun _ => -1, fun _ => 0] ++ (fun _ => 1 : Index 1) :: []) ∧
    searchPoint constGeom1 constGeom1 (fun _ => 0) (fun _ => 1) (fun _ => 0)
      = (dispAtCandidate constGeom1 (fun _ => 0) (fun _ => 1),
         simAtCandidate constGeom1.pixels constGeom1.pixels (fun _ => 0)
           (constGeom1.physToIndex fun _ => 0) (fun _ => 1)) :=
  ⟨by decide,
    claim_C5 constGeom1 constGeom1 (fun _ => 0) (fun _ => 1) (fun _ => 0)
      [fun _ => -1, fun _ => 0] [] (fun _ => 1) (by decide) (by decide) (by decide)⟩

/-- Claim C6: every division of the similarity computation runs with a
nonzero divisor: the checked computation never fails and agrees with the
unchecked one, for every input including constant-intensity blocks. -/
theorem claim_C6 {d : ℕ} (fixed moving : Image d) (r : Fin d → ℕ) (mi cand : Index d) :
    simAtCandidateChecked fixed moving r mi cand
      = some (simAtCandidate fixed moving r mi cand) := by
  have hn : ((numberOfVoxelInBlock r : ℚ)) ≠ 0 := by
    have h := numberOfVoxelInBlock_pos r
    positivity
  have hdc : ∀ x : ℚ, divChecked x (numberOfVoxelInBlock r)
      = some (x / (numberOfVoxelInBlock r)) := fun x => if_neg hn
  rw [simAtCandidateChecked, simAtCandidate, simFromStatsChecked]
  simp only [hdc, Option.some_bind]
  rw [simFromStats, simOf, varOf, varOf, covOf]
  exact guardedDiv_eq _ _

/-- Claim C7: when both blocks are nonconstant the similarity lies in the
unit interval, and when either block has zero variance the similarity is
exactly zero. -/
theorem claim_C7 {d : ℕ} (fixed moving : Image d) (r : Fin d → ℕ) (mi cand : Index d) :
    ((¬blockConstant fixed cand r ∧ ¬blockConstant moving mi r) →
      0 ≤ simAtCandidate fixed moving r mi cand ∧
        simAtCandidate fixed moving r mi cand ≤ 1) ∧
    ((fixedVarianceAt fixed r cand = 0 ∨ movingVarianceAt moving r mi = 0) →
      simAtCandidate fixed moving r mi cand = 0) := by
  constructor
  · rintro ⟨-, -⟩
    rw [simAtCandidate_eq]
    exact simOf_bounds _ _ _ (fixedVarianceAt_nonneg fixed r cand)
      (movingVarianceAt_nonneg moving r mi) (covariance_sq_le fixed moving r mi cand)
  · intro h
    rw [simAtCandidate_eq]
    apply simOf_of_mul_eq_zero
    rcases h with h | h
    · rw [h, zero_mul]
    · rw [h, mul_zero]

/-- Witness for claim C7: a ramp block pair is nonconstant and scores
within the unit interval; a constant-zero block has zero variance and
scores exactly zero. -/
theorem claim_C7_witness :
    ((¬blockConstant rampImage1 (fun _ => 0) (fun _ => 1) ∧
        ¬blockConstant rampImage1 (fun _ => 0) (fun _ => 1)) ∧
      (0 ≤ simAtCandidate rampImage1 rampImage1 (fun _ => 1) (fun _ => 0) (fun _ => 0) ∧
        simAtCandidate rampImage1 rampImage1 (fun _ => 1) (fun _ => 0) (fun _ => 0) ≤ 1)) ∧
    (fixedVarianceAt zeroImage1 (fun _ => 1) (fun _ => 0) = 0 ∧
      simAtCandidate zeroImage1 zeroImage1 (fun _ => 1) (fun _ => 0) (fun _ => 0) = 0) :=
  ⟨⟨⟨by decide, by decide⟩,
    (claim_C7 rampImage1 rampImage1 (fun _ => 1) (fun _ => 0) (fun _ => 0)).1
      ⟨by decide, by decide⟩⟩,
   ⟨by decide,
    (claim_C7 zeroImage1 zeroImage1 (fun _ => 1) (fun _ => 0) (fun _ => 0)).2
      (Or.inl (by decide))⟩⟩

/-- Claim C8: with zero feature points, or with a required image input
absent, the execution fails with an error raised before any worker is
dispatched, and produces no output collections. -/
theorem claim_C8 {d : ℕ} (fixedOpt movingOpt : Option (ImageGeom d))
    (fp : Option (List (PhysPoint d))) (r sr : Fin d → ℕ) (W : ℕ)
    (h : pointsCountOf fp = 0 ∨ fixedOpt = none ∨ movingOpt = none) :
    ∃ e, generateData fixedOpt movingOpt fp r sr W = Except.error e := by
  by_cases hreq : requiredInputsPresent fixedOpt movingOpt = true
  · have hcount : pointsCountOf fp = 0 := by
      rcases h with h | h | h
      · exact h
      · rw [requiredInputsPresent, h] at hreq
        simp at hreq
      · rw [requiredInputsPresent, h] at hreq
        simp at hreq
    refine ⟨.invalidPointsCount, ?_⟩
    rw [generateData, if_pos hreq, beforeThreadedGenerateData]
    simp [hcount]
  · refine ⟨.missingRequiredInput, ?_⟩
    rw [generateData, if_neg hreq]

/-- Witness for claim C8: an empty feature-point list yields an error. -/
theorem claim_C8_witness :
    (pointsCountOf (some ([] : List (PhysPoint 1))) = 0 ∨
      some constGeom1 = none ∨ some constGeom1 = none) ∧
    ∃ e, generateData (some constGeom1) (some constGeom1)
        (some ([] : List (PhysPoint 1))) (fun _ => 0) (fun _ => 0) 1 = Except.error e :=
  ⟨Or.inl (by decide),
    claim_C8 (some constGeom1) (some constGeom1) (some []) (fun _ => 0) (fun _ => 0) 1
      (Or.inl (by decide))⟩

/-- Claim C9: with block radius zero on every axis (a single-voxel block),
the output similarity of every feature point is exactly zero, for every
image content. -/
theorem claim_C9 {d : ℕ} (fixed moving : ImageGeom d) (sr : Fin d → ℕ) (pt : PhysPoint d) :
    (searchPoint fixed moving (fun _ => 0) sr pt).2 = 0 := by
  show (scanCandidates
      (simAtCandidate fixed.pixels moving.pixels (fun _ => 0) (moving.physToIndex pt))
      (dispAtCandidate fixed pt) (fun _ => 0, 0)
      (candidateList (fixed.physToIndex pt) sr)).2 = 0
  exact scanCandidates_sim_zero _ _ _ _
    (fun c _ => simAtCandidate_radius_zero fixed.pixels moving.pixels
      (moving.physToIndex pt) c) rfl

/-- Claim C10: the assembler emits the two output collections, listing for
`i` from 0 to `n - 1` in order the pair of input feature point `i` with the
`i`-th entry of the corresponding result array, and afterwards both
internal arrays are released. -/
theorem claim_C10 {d : ℕ} (points : List (PhysPoint d)) (n : ℕ)
    (dispArr : ℕ → PhysPoint d) (simArr : ℕ → ℚ) :
    (afterThreadedGenerateData points n dispArr simArr).1.displacements
      = ((List.range n).map fun i => (points.getD i fun _ => 0, dispArr i)) ∧
    (afterThreadedGenerateData points n dispArr simArr).1.similarities
      = ((List.range n).map fun i => (points.getD i fun _ => 0, simArr i)) ∧
    (afterThreadedGenerateData points n dispArr simArr).2.displacementsVectorsArray = none ∧
    (afterThreadedGenerateData points n dispArr simArr).2.similaritiesValuesArray = none := by
  refine ⟨?_, ?_, rfl, rfl⟩
  · show (List.range n).foldl (fun acc i => acc ++ [(points.getD i fun _ => 0, dispArr i)]) []
      = _
    rw [foldl_append_eq, List.nil_append]
  · show (List.range n).foldl (fun acc i => acc ++ [(points.getD i fun _ => 0, simArr i)]) []
      = _
    rw [foldl_append_eq, List.nil_append]

end Claims

end ITK
